import Mathlib

/-!
Verification development for the nested-container ("State") core of
`src/flax/nnx/nnx/state.py`.

A Python `dict` is modelled as an insertion-ordered association list
(`List (Key × V)`): lookup returns the first matching entry, assignment
replaces the value of the first matching entry in place (keeping its
position) or appends a fresh entry at the end — exactly Python's
insertion-order semantics.  A `State`'s underlying `_mapping` is such a
dict whose values are either leaves or nested mappings (`Node`), and a
`FlatState` is such a dict keyed by paths (key sequences).
-/

set_option maxRecDepth 8000
set_option linter.unusedSectionVars false

namespace FlaxState

/-- Python dict lookup on an insertion-ordered association list:
the value of the first entry whose key matches, if any. -/
def dlookup {K V : Type} [DecidableEq K] : List (K × V) → K → Option V
  | [], _ => none
  | (k2, v) :: rest, k => if k = k2 then some v else dlookup rest k

/-- Python dict item assignment: replace the value at the first matching
key in place (keeping its position), otherwise append a new entry. -/
def dinsert {K V : Type} [DecidableEq K] : List (K × V) → K → V → List (K × V)
  | [], k, v => [(k, v)]
  | (k2, v2) :: rest, k, v =>
      if k = k2 then (k2, v) :: rest else (k2, v2) :: dinsert rest k v

section DictLemmas

variable {K V : Type} [DecidableEq K]

@[simp] theorem dlookup_nil (k : K) : dlookup ([] : List (K × V)) k = none := rfl

theorem dlookup_cons (k k2 : K) (v : V) (rest : List (K × V)) :
    dlookup ((k2, v) :: rest) k = if k = k2 then some v else dlookup rest k := rfl

theorem dlookup_eq_none_iff (m : List (K × V)) (k : K) :
    dlookup m k = none ↔ k ∉ m.map Prod.fst := by
  induction m with
  | nil => simp
  | cons kv rest ih =>
      obtain ⟨k2, v⟩ := kv
      by_cases h : k = k2 <;> simp [dlookup_cons, h, ih]

theorem dlookup_isSome_of_mem {m : List (K × V)} {k : K} {v : V}
    (h : (k, v) ∈ m) : (dlookup m k).isSome = true := by
  induction m with
  | nil => simp at h
  | cons kv rest ih =>
      obtain ⟨k2, v2⟩ := kv
      rcases List.mem_cons.mp h with h1 | h1
      · obtain ⟨rfl, rfl⟩ := Prod.mk.injEq .. ▸ h1
        simp [dlookup_cons]
      · by_cases hk : k = k2 <;> simp [dlookup_cons, hk, ih h1]

theorem mem_of_dlookup {m : List (K × V)} {k : K} {v : V}
    (h : dlookup m k = some v) : (k, v) ∈ m := by
  induction m with
  | nil => simp [dlookup] at h
  | cons kv rest ih =>
      obtain ⟨k2, v2⟩ := kv
      by_cases hk : k = k2
      · subst hk
        simp only [dlookup_cons, if_pos, Option.some.injEq] at h
        subst h; exact List.mem_cons_self _ _
      · simp only [dlookup_cons, if_neg hk] at h
        exact List.mem_cons_of_mem _ (ih h)

theorem dlookup_append (a b : List (K × V)) (k : K) :
    dlookup (a ++ b) k = (dlookup a k).or (dlookup b k) := by
  induction a with
  | nil => simp [dlookup]
  | cons kv rest ih =>
      obtain ⟨k2, v2⟩ := kv
      by_cases hk : k = k2 <;> simp [dlookup_cons, hk, ih, Option.or]

@[simp] theorem dlookup_dinsert_self (m : List (K × V)) (k : K) (v : V) :
    dlookup (dinsert m k v) k = some v := by
  induction m with
  | nil => simp [dinsert, dlookup_cons]
  | cons kv rest ih =>
      obtain ⟨k2, v2⟩ := kv
      by_cases hk : k = k2 <;> simp [dinsert, dlookup_cons, hk, ih]

theorem dlookup_dinsert_ne (m : List (K × V)) {k k2 : K} (v : V)
    (h : k2 ≠ k) : dlookup (dinsert m k v) k2 = dlookup m k2 := by
  induction m with
  | nil => simp [dinsert, dlookup_cons, h]
  | cons kv rest ih =>
      obtain ⟨k3, v3⟩ := kv
      by_cases hk : k = k3
      · subst hk
        simp [dinsert, dlookup_cons, h]
      · by_cases hk2 : k2 = k3 <;> simp [dinsert, dlookup_cons, hk, hk2, ih]

theorem dinsert_of_dlookup_self {m : List (K × V)} {k : K} {v : V}
    (h : dlookup m k = some v) : dinsert m k v = m := by
  induction m with
  | nil => simp [dlookup] at h
  | cons kv rest ih =>
      obtain ⟨k2, v2⟩ := kv
      by_cases hk : k = k2
      · subst hk
        simp only [dlookup_cons, if_pos, Option.some.injEq] at h
        simp [dinsert, h]
      · simp only [dlookup_cons, if_neg hk] at h
        simp [dinsert, hk, ih h]

theorem dinsert_dinsert (m : List (K × V)) (k : K) (v w : V) :
    dinsert (dinsert m k v) k w = dinsert m k w := by
  induction m with
  | nil => simp [dinsert]
  | cons kv rest ih =>
      obtain ⟨k2, v2⟩ := kv
      by_cases hk : k = k2 <;> simp [dinsert, hk, ih]

theorem dinsert_of_dlookup_none {m : List (K × V)} {k : K} (v : V)
    (h : dlookup m k = none) : dinsert m k v = m ++ [(k, v)] := by
  induction m with
  | nil => simp [dinsert]
  | cons kv rest ih =>
      obtain ⟨k2, v2⟩ := kv
      by_cases hk : k = k2
      · simp [dlookup_cons, hk] at h
      · simp only [dlookup_cons, if_neg hk] at h
        simp [dinsert, hk, ih h]

theorem dinsert_append_self {m : List (K × V)} {k : K} (x y : V)
    (h : dlookup m k = none) :
    dinsert (m ++ [(k, x)]) k y = m ++ [(k, y)] := by
  induction m with
  | nil => simp [dinsert]
  | cons kv rest ih =>
      obtain ⟨k2, v2⟩ := kv
      by_cases hk : k = k2
      · simp [dlookup_cons, hk] at h
      · simp only [dlookup_cons, if_neg hk] at h
        simp [dinsert, hk, ih h]

theorem value_eq_of_nodup_keys {m : List (K × V)} {k : K} {v w : V}
    (hnd : (m.map Prod.fst).Nodup) (hv : (k, v) ∈ m) (hw : (k, w) ∈ m) :
    v = w := by
  induction m with
  | nil => simp at hv
  | cons kv rest ih =>
      obtain ⟨k2, v2⟩ := kv
      simp only [List.map_cons, List.nodup_cons] at hnd
      rcases List.mem_cons.mp hv with h1 | h1 <;>
        rcases List.mem_cons.mp hw with h2 | h2
      · obtain ⟨-, rfl⟩ := Prod.mk.injEq .. ▸ h1
        obtain ⟨-, rfl⟩ := Prod.mk.injEq .. ▸ h2
        rfl
      · obtain ⟨rfl, rfl⟩ := Prod.mk.injEq .. ▸ h1
        exact absurd (List.mem_map_of_mem Prod.fst h2) hnd.1
      · obtain ⟨rfl, rfl⟩ := Prod.mk.injEq .. ▸ h2
        exact absurd (List.mem_map_of_mem Prod.fst h1) hnd.1
      · exact ih hnd.2 h1 h2

end DictLemmas

/-- A value stored in a `State` mapping: either an opaque leaf
(`VariableState`, `np.ndarray`, `jax.Array` in the source) or a nested
mapping.  `Key` and `Leaf` are opaque type parameters. -/
inductive Node (Key Leaf : Type) where
  | leaf (v : Leaf)
  | node (m : List (Key × Node Key Leaf))

/-- The underlying `_mapping` of a `State`. -/
abbrev SM (Key Leaf : Type) := List (Key × Node Key Leaf)

/-- A path of keys from the root (`PathParts` in the source). -/
abbrev Path (Key : Type) := List Key

/-- A `FlatState`: a path-keyed dict of leaves. -/
abbrev FlatS (Key Leaf : Type) := List (Path Key × Leaf)

variable {Key Leaf : Type} [DecidableEq Key]

/-- Modelled from the spec: `traverse_util.flatten_dict`, the callee of
`State.flat_state` (the `flax.traverse_util` module is not among the
sources).  Depth-first, key-order traversal: a leaf at top-level key `k`
emits the entry `([k], v)`; a sub-container is flattened recursively and
`k` is prepended to every returned path.  One entry per leaf, none for
intermediate nodes. -/
def flattenM : SM Key Leaf → FlatS Key Leaf
  | [] => []
  | (k, Node.leaf v) :: rest => ([k], v) :: flattenM rest
  | (k, Node.node sub) :: rest =>
      (flattenM sub).map (fun pv => (k :: pv.1, pv.2)) ++ flattenM rest

/-- Leaf lookup by full path in a nested mapping: follows sub-mappings
along the path and returns the leaf at its end, if any. -/
def getPathM : SM Key Leaf → Path Key → Option Leaf
  | _, [] => none
  | m, k :: p =>
      match dlookup m k, p with
      | some (Node.leaf v), [] => some v
      | some (Node.node sub), _ :: _ => getPathM sub p
      | _, _ => none

/-- Total number of leaves in a nested mapping. -/
def leafCountM : SM Key Leaf → Nat
  | [] => 0
  | (_, Node.leaf _) :: rest => 1 + leafCountM rest
  | (_, Node.node sub) :: rest => leafCountM sub + leafCountM rest

/-- Well-formedness every Python dict has by construction: keys are
unique at every nesting level. -/
def wfKeysM : SM Key Leaf → Bool
  | [] => true
  | (k, Node.leaf _) :: rest => (dlookup rest k).isNone && wfKeysM rest
  | (k, Node.node sub) :: rest =>
      (dlookup rest k).isNone && wfKeysM sub && wfKeysM rest

/-- Every sub-container of the mapping is non-empty. -/
def neNodes : SM Key Leaf → Bool
  | [] => true
  | (_, Node.leaf _) :: rest => neNodes rest
  | (_, Node.node sub) :: rest => !sub.isEmpty && neNodes sub && neNodes rest

/-- A well-formed state mapping: unique keys at every level and no empty
sub-container. -/
def wfState (m : SM Key Leaf) : Bool := wfKeysM m && neNodes m

/-- Modelled from the spec: one insertion step of
`traverse_util.unflatten_dict`, the callee of `State.from_flat_path` (the
`flax.traverse_util` module is not among the sources).  Walks the path,
entering existing sub-mappings and creating missing ones, and stores the
leaf under the final key.  Per the spec a path that is a strict prefix of
another (a leaf that would also be an ancestor) must be rejected rather
than silently resolved, so the step fails when it meets a leaf where it
needs a sub-mapping or finds the final key already taken. -/
def insertPath : SM Key Leaf → Path Key → Leaf → Option (SM Key Leaf)
  | _, [], _ => none
  | m, [k], v =>
      match dlookup m k with
      | none => some (m ++ [(k, Node.leaf v)])
      | some _ => none
  | m, k :: p1 :: p2, v =>
      match dlookup m k with
      | some (Node.leaf _) => none
      | some (Node.node sub) =>
          (insertPath sub (p1 :: p2) v).map (fun sub2 => dinsert m k (Node.node sub2))
      | none =>
          (insertPath [] (p1 :: p2) v).map (fun sub2 => m ++ [(k, Node.node sub2)])

/-- Insert every entry of a flat state in order, starting from `m`. -/
def foldIns : SM Key Leaf → FlatS Key Leaf → Option (SM Key Leaf)
  | m, [] => some m
  | m, pv :: f =>
      match insertPath m pv.1 pv.2 with
      | none => none
      | some m2 => foldIns m2 f

/-- Modelled from the spec: `State.from_flat_path` — unflatten a flat
state by grouping paths on shared key prefixes, building intermediate
containers, rejecting strict-prefix conflicts. -/
def unflattenF (f : FlatS Key Leaf) : Option (SM Key Leaf) :=
  foldIns [] f

/-- A filter as accepted by `split` and `filter`: the wildcard sentinel
(Python `...`), a literal boolean, or a predicate over (path, leaf).
Modelled from the spec: the predicate form and Wildcard come from the
spec's Filter contract; the boolean literals appear in the source's
ordering check (`filter_ in (..., True)`). -/
inductive Filter (Key Leaf : Type) where
  | wildcard
  | ofBool (b : Bool)
  | pred (f : Path Key → Leaf → Bool)

/-- The source's membership test `filter_ in (..., True)`. -/
def isWildcardLike : Filter Key Leaf → Bool
  | Filter.wildcard => true
  | Filter.ofBool b => b
  | Filter.pred _ => false

/-- Modelled from the spec: `filterlib.to_predicate` (the `filterlib`
module is not among the sources) — Wildcard and `True` match
unconditionally, `False` matches nothing, a predicate is used as is. -/
def toPredicate : Filter Key Leaf → (Path Key → Leaf → Bool)
  | Filter.wildcard => fun _ _ => true
  | Filter.ofBool b => fun _ _ => b
  | Filter.pred f => f

/-- The validation loop at the top of `_split_state`: a wildcard-like
filter followed by any filter that is not wildcard-like is an ordering
violation. -/
def orderingViolation : List (Filter Key Leaf) → Bool
  | [] => false
  | f :: rest =>
      (isWildcardLike f && !rest.isEmpty && !rest.all isWildcardLike) ||
        orderingViolation rest

/-- The two errors raised by the split machinery: the ordering
`ValueError` of `_split_state` and the non-exhaustive-filters
`ValueError` of `State.split`. -/
inductive SplitErr where
  | ordering
  | nonExhaustive
deriving DecidableEq

/-- The bucket-assignment loop of `_split_state`: each (path, leaf) pair
goes to the bucket of the first predicate that returns true for it;
pairs matched by no predicate go to the final remainder bucket.
(The source appends each pair to its bucket in one pass over the flat
state; equivalently, the first bucket collects the pairs its predicate
matches and the remaining buckets partition the pairs it does not.) -/
def splitFlat : List (Path Key → Leaf → Bool) → FlatS Key Leaf → List (FlatS Key Leaf)
  | [], flat => [flat]
  | q :: rest, flat =>
      flat.filter (fun pv => q pv.1 pv.2) ::
        splitFlat rest (flat.filter (fun pv => !q pv.1 pv.2))

/-- Embedding of `_split_state`: validate filter ordering, then partition the
flattened state into one bucket per filter plus a remainder bucket.
(The source additionally passes each bucket through
`State.from_flat_path`; the claims are stated on the FlatState buckets,
the spec's Partition.) -/
def splitStateCore (m : SM Key Leaf) (filters : List (Filter Key Leaf)) :
    Except SplitErr (List (FlatS Key Leaf)) :=
  if orderingViolation filters then Except.error SplitErr.ordering
  else Except.ok (splitFlat (filters.map toPredicate) (flattenM m))

/-- Embedding of `State.split`: partition, fail with the non-exhaustive error when
the remainder bucket is non-empty, otherwise drop it and return the
per-filter buckets. -/
def splitOp (m : SM Key Leaf) (filters : List (Filter Key Leaf)) :
    Except SplitErr (List (FlatS Key Leaf)) :=
  match splitStateCore m filters with
  | Except.error e => Except.error e
  | Except.ok bs =>
      if (bs.getLastD []).isEmpty then Except.ok bs.dropLast
      else Except.error SplitErr.nonExhaustive

/-- Embedding of `State.filter`: identical partitioning, but the remainder bucket is
dropped unconditionally. -/
def filterOp (m : SM Key Leaf) (filters : List (Filter Key Leaf)) :
    Except SplitErr (List (FlatS Key Leaf)) :=
  match splitStateCore m filters with
  | Except.error e => Except.error e
  | Except.ok bs => Except.ok bs.dropLast

/-- Python's `dict.update`: fold the entries of `b` into `a` with
item assignment (last write wins, position of an existing key kept). -/
def dictUpdate : FlatS Key Leaf → FlatS Key Leaf → FlatS Key Leaf
  | acc, [] => acc
  | acc, pv :: rest => dictUpdate (dinsert acc pv.1 pv.2) rest

/-- The overlay loop of `State.merge`: update an initially empty dict
with every operand's flat state, in order. -/
def mergeFlats (ss : List (SM Key Leaf)) : FlatS Key Leaf :=
  ss.foldl (fun acc s => dictUpdate acc (flattenM s)) []

/-- Embedding of `State.merge`: a single operand is returned unchanged; otherwise the
operands' flat states are overlaid in order and the result unflattened. -/
def mergeM : List (SM Key Leaf) → Option (SM Key Leaf)
  | [] => none
  | [s] => some s
  | ss => unflattenF (mergeFlats ss)

/-- Embedding of `State.__sub__` (difference): an empty right operand returns the
left operand unchanged; otherwise keep exactly the entries of the left
flat state whose path is absent from the right flat state, and
unflatten. -/
def subM (a b : SM Key Leaf) : Option (SM Key Leaf) :=
  if b.isEmpty then some a
  else unflattenF ((flattenM a).filter (fun pv => (dlookup (flattenM b) pv.1).isNone))

/-- Embedding of `State.__or__` (union): an empty right operand returns the left
operand unchanged; otherwise merge. -/
def unionM (a b : SM Key Leaf) : Option (SM Key Leaf) :=
  if b.isEmpty then some a else mergeM [a, b]

/-- A value stored in a heap-modelled Python dict: either a reference to
another dict object (by heap address) or a leaf.  This models the object
graph relevant to `State.__getitem__`: a `State` wraps a dict object, and
nested values are themselves dict objects referenced, not copied. -/
inductive HVal (Leaf : Type) where
  | ref (a : Nat)
  | leaf (v : Leaf)
deriving DecidableEq

/-- A heap of dict objects, addressed by position. -/
abbrev Heap (Key Leaf : Type) := List (List (Key × HVal Leaf))

/-- Result of `State.__getitem__`: a `State` view wrapping the dict
object at a heap address (constructed with `_copy=False`, hence the very
same object, no copy), or a leaf returned directly. -/
inductive GetR (Leaf : Type) where
  | stateAt (a : Nat)
  | leafV (v : Leaf)
deriving DecidableEq

/-- Embedding of `State.__getitem__` over the heap model: look the key up in the dict
object the state wraps; a nested mapping is returned as a view sharing
that mapping's address, a leaf is returned directly, and an absent key
is a lookup error (`none`, Python `KeyError`). -/
def getItemH (h : Heap Key Leaf) (a : Nat) (k : Key) : Option (GetR Leaf) :=
  match dlookup (h.getD a []) k with
  | none => none
  | some (HVal.ref a2) => some (GetR.stateAt a2)
  | some (HVal.leaf v) => some (GetR.leafV v)

/-- Embedding of `State.__setitem__` over the heap model: mutate the dict object at
address `a` in place by Python item assignment. -/
def setItemH (h : Heap Key Leaf) (a : Nat) (k : Key) (v : HVal Leaf) :
    Heap Key Leaf :=
  h.set a (dinsert (h.getD a []) k v)

section FlattenLemmas

/-- Every path emitted by `flattenM` is non-empty. -/
theorem flattenM_path_ne_nil {m : SM Key Leaf} :
    ∀ pv ∈ flattenM m, pv.1 ≠ [] := by
  induction m using flattenM.induct with
  | case1 => intro pv h; simp [flattenM] at h
  | case2 k v rest ih =>
      intro pv h
      rw [flattenM] at h
      rcases List.mem_cons.mp h with h1 | h1
      · subst h1; simp
      · exact ih pv h1
  | case3 k sub rest ihsub ih =>
      intro pv h
      rw [flattenM] at h
      rcases List.mem_append.mp h with h1 | h1
      · obtain ⟨qv, -, rfl⟩ := List.mem_map.mp h1
        simp
      · exact ih pv h1

/-- The head key of every emitted path is a key of the mapping. -/
theorem flattenM_head_lookup {m : SM Key Leaf} :
    ∀ pv ∈ flattenM m, ∀ k p, pv.1 = k :: p → (dlookup m k).isSome = true := by
  induction m using flattenM.induct with
  | case1 => intro pv h; simp [flattenM] at h
  | case2 k0 v rest ih =>
      intro pv h k p hp
      rw [flattenM] at h
      rcases List.mem_cons.mp h with h1 | h1
      · subst h1
        obtain ⟨rfl, -⟩ := List.cons.injEq .. ▸ hp
        simp [dlookup_cons]
      · by_cases hk : k = k0
        · simp [dlookup_cons, hk]
        · have := ih pv h1 k p hp
          simpa [dlookup_cons, hk] using this
  | case3 k0 sub rest ihsub ih =>
      intro pv h k p hp
      rw [flattenM] at h
      rcases List.mem_append.mp h with h1 | h1
      · obtain ⟨qv, -, rfl⟩ := List.mem_map.mp h1
        obtain ⟨rfl, -⟩ := List.cons.injEq .. ▸ hp
        simp [dlookup_cons]
      · by_cases hk : k = k0
        · simp [dlookup_cons, hk]
        · have := ih pv h1 k p hp
          simpa [dlookup_cons, hk] using this

/-- Under unique keys, the emitted paths are pairwise distinct. -/
theorem flattenM_paths_nodup {m : SM Key Leaf} (hwf : wfKeysM m = true) :
    ((flattenM m).map Prod.fst).Nodup := by
  induction m using flattenM.induct with
  | case1 => simp [flattenM]
  | case2 k v rest ih =>
      rw [wfKeysM, Bool.and_eq_true, Option.isNone_iff_eq_none] at hwf
      rw [flattenM]
      refine List.nodup_cons.mpr ⟨?_, ih hwf.2⟩
      intro hmem
      obtain ⟨pv, hpv, heq⟩ := List.mem_map.mp hmem
      have := flattenM_head_lookup pv hpv k [] heq
      rw [hwf.1] at this
      simp at this
  | case3 k sub rest ihsub ih =>
      rw [wfKeysM, Bool.and_eq_true, Bool.and_eq_true,
        Option.isNone_iff_eq_none] at hwf
      rw [flattenM, List.map_append]
      refine List.Nodup.append ?_ (ih hwf.2) ?_
      · rw [List.map_map]
        have : (Prod.fst ∘ fun pv : Path Key × Leaf => (k :: pv.1, pv.2)) =
            (fun p => k :: p) ∘ Prod.fst := rfl
        rw [this, ← List.map_map]
        exact (ihsub hwf.1.2).map (fun a b h => (List.cons.injEq .. ▸ h).2)
      · intro p hp1 hp2
        obtain ⟨pv, hpv, hpe⟩ := List.mem_map.mp hp1
        obtain ⟨qv, hqv, hqe⟩ := List.mem_map.mp hp2
        obtain ⟨pv2, hpv2, hpe2⟩ := List.mem_map.mp hpv
        have hhead : p = k :: pv2.1 := by
          rw [← hpe, ← hpe2]
        have := flattenM_head_lookup qv hqv k pv2.1 (hqe.trans hhead)
        rw [hwf.1.1] at this
        simp at this

/-- Flattening emits exactly one entry per leaf. -/
theorem flattenM_length (m : SM Key Leaf) :
    (flattenM m).length = leafCountM m := by
  induction m using flattenM.induct with
  | case1 => simp [flattenM, leafCountM]
  | case2 k v rest ih => simp [flattenM, leafCountM, ih, Nat.add_comm]
  | case3 k sub rest ihsub ih => simp [flattenM, leafCountM, ihsub, ih]

/-- A well-formed non-empty mapping flattens to a non-empty flat state. -/
theorem flattenM_ne_nil {m : SM Key Leaf} (hne : neNodes m = true)
    (h : m ≠ []) : flattenM m ≠ [] := by
  induction m using flattenM.induct with
  | case1 => exact absurd rfl h
  | case2 k v rest ih => simp [flattenM]
  | case3 k sub rest ihsub ih =>
      rw [neNodes, Bool.and_eq_true, Bool.and_eq_true] at hne
      have hsub : sub ≠ [] := by
        intro hc
        rw [hc] at hne
        simp at hne
      have := ihsub hne.1.2 hsub
      rw [flattenM]
      intro hc
      rcases List.append_eq_nil.mp hc with ⟨h1, -⟩
      exact this (List.map_eq_nil_iff.mp h1)

end FlattenLemmas

section GetPathLemmas

/-- Lookup `getPathM` on a non-empty path only looks at the head key's value. -/
theorem getPathM_cons_congr {m m2 : SM Key Leaf} {k : Key}
    (h : dlookup m2 k = dlookup m k) (p : Path Key) :
    getPathM m2 (k :: p) = getPathM m (k :: p) := by
  cases p with
  | nil =>
      cases hl : dlookup m k with
      | none => simp [getPathM, h, hl]
      | some nd => cases nd <;> simp [getPathM, h, hl]
  | cons p1 p2 =>
      cases hl : dlookup m k with
      | none => simp [getPathM, h, hl]
      | some nd => cases nd <;> simp [getPathM, h, hl]

/-- Reduction of `getPathM` through a sub-mapping at the head key. -/
theorem getPathM_cons_node {m sub : SM Key Leaf} {k : Key}
    (hl : dlookup m k = some (Node.node sub)) (p1 : Key) (p2 : Path Key) :
    getPathM m (k :: p1 :: p2) = getPathM sub (p1 :: p2) := by
  simp [getPathM, hl]

/-- Reduction of `getPathM` at a leaf under the head key. -/
theorem getPathM_cons_leaf {m : SM Key Leaf} {k : Key} {w : Leaf}
    (hl : dlookup m k = some (Node.leaf w)) :
    getPathM m [k] = some w := by
  simp [getPathM, hl]

/-- A leaf pins its path down: no strictly longer path can resolve. -/
theorem getPathM_append_ne_nil {p : Path Key} :
    ∀ {m : SM Key Leaf} {r : Path Key} {v : Leaf}, r ≠ [] →
      getPathM m p = some v → getPathM m (p ++ r) = none := by
  induction p with
  | nil => intro m r v hr h; simp [getPathM] at h
  | cons k rest ih =>
      intro m r v hr h
      cases hl : dlookup m k with
      | none => cases rest <;> simp [getPathM, hl] at h
      | some nd =>
          cases nd with
          | leaf w =>
              cases rest with
              | nil =>
                  cases r with
                  | nil => exact absurd rfl hr
                  | cons r1 r2 => simp [getPathM, hl]
              | cons q1 q2 => simp [getPathM, hl] at h
          | node sub =>
              cases rest with
              | nil => simp [getPathM, hl] at h
              | cons q1 q2 =>
                  have h2 : getPathM sub (q1 :: q2) = some v := by
                    simpa [getPathM, hl] using h
                  have h3 := ih hr h2
                  simpa [getPathM, hl] using h3

end GetPathLemmas

section UnflattenLemmas

theorem foldIns_cons (m : SM Key Leaf) (pv : Path Key × Leaf)
    (f : FlatS Key Leaf) :
    foldIns m (pv :: f) =
      (insertPath m pv.1 pv.2).bind (fun m2 => foldIns m2 f) := by
  cases hI : insertPath m pv.1 pv.2 <;> simp [foldIns, hI]

theorem foldIns_append (f1 : FlatS Key Leaf) :
    ∀ (m : SM Key Leaf) (f2 : FlatS Key Leaf),
      foldIns m (f1 ++ f2) =
        (foldIns m f1).bind (fun m2 => foldIns m2 f2) := by
  induction f1 with
  | nil => intro m f2; simp [foldIns]
  | cons pv f ih =>
      intro m f2
      rw [List.cons_append, foldIns_cons, foldIns_cons]
      cases hI : insertPath m pv.1 pv.2 with
      | none => simp
      | some m2 => simp [ih m2 f2]

/-- Folding a block of entries whose paths all start with key `k`, when
`k` already maps to sub-mapping `cur`, updates that sub-mapping in
place. -/
theorem foldIns_map_cons_node {k : Key} {F : FlatS Key Leaf} :
    ∀ {m cur : SM Key Leaf}, dlookup m k = some (Node.node cur) →
      (∀ pv ∈ F, pv.1 ≠ []) →
      foldIns m (F.map (fun pv => (k :: pv.1, pv.2))) =
        (foldIns cur F).map (fun sub => dinsert m k (Node.node sub)) := by
  induction F with
  | nil =>
      intro m cur h hne
      simp [foldIns, dinsert_of_dlookup_self h]
  | cons pv F2 ih =>
      intro m cur h hne
      obtain ⟨p, v⟩ := pv
      obtain ⟨p1, p2, rfl⟩ : ∃ p1 p2, p = p1 :: p2 := by
        cases p with
        | nil => exact absurd rfl (hne (⟨[], v⟩) (List.mem_cons_self _ _))
        | cons p1 p2 => exact ⟨p1, p2, rfl⟩
      rw [List.map_cons, foldIns_cons, foldIns_cons]
      have hins : insertPath m (k :: p1 :: p2) v =
          (insertPath cur (p1 :: p2) v).map
            (fun sub2 => dinsert m k (Node.node sub2)) := by
        rw [insertPath, h]
      rw [hins]
      cases hI : insertPath cur (p1 :: p2) v with
      | none => simp
      | some cur2 =>
          simp only [Option.map_some', Option.some_bind]
          have h2 : dlookup (dinsert m k (Node.node cur2)) k =
              some (Node.node cur2) := dlookup_dinsert_self _ _ _
          rw [ih h2 (fun qv hq => hne qv (List.mem_cons_of_mem _ hq))]
          cases foldIns cur2 F2 with
          | none => simp
          | some s => simp [dinsert_dinsert]

/-- Folding a block of entries whose paths all start with a fresh key
`k` appends a single sub-mapping entry holding the block's unflattened
contents. -/
theorem foldIns_map_cons_fresh {k : Key} {F : FlatS Key Leaf}
    {m : SM Key Leaf} (h : dlookup m k = none) (hF : F ≠ [])
    (hne : ∀ pv ∈ F, pv.1 ≠ []) :
    foldIns m (F.map (fun pv => (k :: pv.1, pv.2))) =
      (foldIns [] F).map (fun sub => m ++ [(k, Node.node sub)]) := by
  cases F with
  | nil => exact absurd rfl hF
  | cons pv F2 =>
      obtain ⟨p, v⟩ := pv
      obtain ⟨p1, p2, rfl⟩ : ∃ p1 p2, p = p1 :: p2 := by
        cases p with
        | nil => exact absurd rfl (hne (⟨[], v⟩) (List.mem_cons_self _ _))
        | cons p1 p2 => exact ⟨p1, p2, rfl⟩
      rw [List.map_cons, foldIns_cons, foldIns_cons]
      have hins : insertPath m (k :: p1 :: p2) v =
          (insertPath [] (p1 :: p2) v).map
            (fun sub2 => m ++ [(k, Node.node sub2)]) := by
        rw [insertPath, h]
      rw [hins]
      cases hI : insertPath [] (p1 :: p2) v with
      | none => simp
      | some s1 =>
          simp only [Option.map_some', Option.some_bind]
          have h2 : dlookup (m ++ [(k, Node.node s1)]) k =
              some (Node.node s1) := by
            rw [dlookup_append, h]
            simp [dlookup_cons, Option.or]
          rw [foldIns_map_cons_node h2
            (fun qv hq => hne qv (List.mem_cons_of_mem _ hq))]
          cases foldIns s1 F2 with
          | none => simp
          | some s => simp [dinsert_append_self _ _ h]

/-- Re-inserting the flattening of a well-formed mapping after any
prefix `acc` whose keys are disjoint from its top-level keys appends the
mapping unchanged. -/
theorem foldIns_flattenM {m : SM Key Leaf} (hk : wfKeysM m = true)
    (hne : neNodes m = true) :
    ∀ acc : SM Key Leaf, (∀ k2 ∈ m.map Prod.fst, dlookup acc k2 = none) →
      foldIns acc (flattenM m) = some (acc ++ m) := by
  induction m using flattenM.induct with
  | case1 => intro acc hdisj; simp [flattenM, foldIns]
  | case2 k v rest ih =>
      intro acc hdisj
      simp only [wfKeysM, Bool.and_eq_true, Option.isNone_iff_eq_none] at hk
      simp only [neNodes] at hne
      have hacc : dlookup acc k = none := hdisj k (by simp)
      rw [flattenM, foldIns_cons]
      have hins : insertPath acc [k] v = some (acc ++ [(k, Node.leaf v)]) := by
        rw [insertPath, hacc]
      rw [hins, Option.some_bind]
      have := ih hk.2 hne (acc ++ [(k, Node.leaf v)]) ?_
      · rw [this]
        simp [List.append_assoc]
      · intro k2 hk2
        have hne2 : k2 ≠ k := by
          intro hc
          subst hc
          rw [dlookup_eq_none_iff] at hk
          exact hk.1 hk2
        rw [dlookup_append, hdisj k2 (by simp [hk2])]
        simp [dlookup_cons, hne2, Option.or]
  | case3 k sub rest ihsub ih =>
      intro acc hdisj
      simp only [wfKeysM, Bool.and_eq_true, Option.isNone_iff_eq_none] at hk
      rw [neNodes, Bool.and_eq_true, Bool.and_eq_true] at hne
      have hsubne : sub ≠ [] := by
        intro hc
        subst hc
        simp at hne
      have hacc : dlookup acc k = none := hdisj k (by simp)
      rw [flattenM, foldIns_append]
      have hsub : foldIns acc
          ((flattenM sub).map (fun pv => (k :: pv.1, pv.2))) =
          some (acc ++ [(k, Node.node sub)]) := by
        rw [foldIns_map_cons_fresh hacc
          (flattenM_ne_nil hne.1.2 hsubne) (fun pv h => flattenM_path_ne_nil pv h)]
        have := ihsub hk.1.2 hne.1.2 [] (by simp)
        rw [this]
        simp
      rw [hsub, Option.some_bind]
      have := ih hk.2 hne.2 (acc ++ [(k, Node.node sub)]) ?_
      · rw [this]
        simp [List.append_assoc]
      · intro k2 hk2
        have hne2 : k2 ≠ k := by
          intro hc
          subst hc
          rw [dlookup_eq_none_iff] at hk
          exact hk.1.1 hk2
        rw [dlookup_append, hdisj k2 (by simp [hk2])]
        simp [dlookup_cons, hne2, Option.or]

/-- Round trip: unflattening the flattening of a well-formed mapping
reproduces it exactly. -/
theorem unflattenF_flattenM {m : SM Key Leaf} (h : wfState m = true) :
    unflattenF (flattenM m) = some m := by
  rw [wfState, Bool.and_eq_true] at h
  have := foldIns_flattenM h.1 h.2 [] (by simp)
  simpa [unflattenF] using this

end UnflattenLemmas

section InsertSpec

/-- A successful insertion stores the new leaf at its path and preserves
every leaf already reachable. -/
theorem insertPath_spec {v : Leaf} {p : Path Key} :
    ∀ {m m2 : SM Key Leaf}, insertPath m p v = some m2 →
      getPathM m2 p = some v ∧
        ∀ q w, getPathM m q = some w → getPathM m2 q = some w := by
  induction p with
  | nil => intro m m2 h; simp [insertPath] at h
  | cons k rest ih =>
      intro m m2 h
      cases rest with
      | nil =>
          cases hl : dlookup m k with
          | some nd => rw [insertPath, hl] at h; simp at h
          | none =>
              rw [insertPath, hl] at h
              have hm2 : m2 = m ++ [(k, Node.leaf v)] := by simpa using h.symm
              subst hm2
              constructor
              · have hlk : dlookup (m ++ [(k, Node.leaf v)]) k =
                    some (Node.leaf v) := by
                  rw [dlookup_append, hl]
                  simp [dlookup_cons, Option.or]
                simp [getPathM, hlk]
              · intro q w hq
                cases q with
                | nil => simp [getPathM] at hq
                | cons kq q2 =>
                    by_cases hkq : kq = k
                    · subst hkq
                      cases q2 <;> simp [getPathM, hl] at hq
                    · have heq : dlookup (m ++ [(k, Node.leaf v)]) kq =
                          dlookup m kq := by
                        rw [dlookup_append]
                        simp [dlookup_cons, hkq]
                      rw [getPathM_cons_congr heq q2]
                      exact hq
      | cons r1 r2 =>
          cases hl : dlookup m k with
          | some nd =>
              cases nd with
              | leaf w0 =>
                  have hrw : insertPath m (k :: r1 :: r2) v = none := by
                    rw [insertPath, hl]
                  rw [hrw] at h
                  simp at h
              | node sub =>
                  have hrw : insertPath m (k :: r1 :: r2) v =
                      (insertPath sub (r1 :: r2) v).map
                        (fun sub2 => dinsert m k (Node.node sub2)) := by
                    rw [insertPath, hl]
                  rw [hrw] at h
                  cases hI : insertPath sub (r1 :: r2) v with
                  | none => rw [hI] at h; simp at h
                  | some sub2 =>
                      rw [hI] at h
                      have hm2 : m2 = dinsert m k (Node.node sub2) := by
                        simpa using h.symm
                      subst hm2
                      obtain ⟨ih1, ih2⟩ := ih hI
                      constructor
                      · rw [getPathM_cons_node (dlookup_dinsert_self _ _ _)]
                        exact ih1
                      · intro q w hq
                        cases q with
                        | nil => simp [getPathM] at hq
                        | cons kq q2 =>
                            by_cases hkq : kq = k
                            · subst hkq
                              cases q2 with
                              | nil => simp [getPathM, hl] at hq
                              | cons q21 q22 =>
                                  have hq2 : getPathM sub (q21 :: q22) =
                                      some w := by
                                    rw [getPathM_cons_node hl] at hq
                                    exact hq
                                  have hn := ih2 _ w hq2
                                  rw [getPathM_cons_node
                                    (dlookup_dinsert_self _ _ _)]
                                  exact hn
                            · have heq :
                                  dlookup (dinsert m k (Node.node sub2)) kq =
                                    dlookup m kq :=
                                dlookup_dinsert_ne _ _ hkq
                              rw [getPathM_cons_congr heq q2]
                              exact hq
          | none =>
              have hrw : insertPath m (k :: r1 :: r2) v =
                  (insertPath [] (r1 :: r2) v).map
                    (fun sub2 => m ++ [(k, Node.node sub2)]) := by
                rw [insertPath, hl]
              rw [hrw] at h
              cases hI : insertPath [] (r1 :: r2) v with
              | none => rw [hI] at h; simp at h
              | some sub2 =>
                  rw [hI] at h
                  have hm2 : m2 = m ++ [(k, Node.node sub2)] := by
                    simpa using h.symm
                  subst hm2
                  obtain ⟨ih1, -⟩ := ih hI
                  constructor
                  · have hlk : dlookup (m ++ [(k, Node.node sub2)]) k =
                        some (Node.node sub2) := by
                      rw [dlookup_append, hl]
                      simp [dlookup_cons, Option.or]
                    rw [getPathM_cons_node hlk]
                    exact ih1
                  · intro q w hq
                    cases q with
                    | nil => simp [getPathM] at hq
                    | cons kq q2 =>
                        by_cases hkq : kq = k
                        · subst hkq
                          cases q2 <;> simp [getPathM, hl] at hq
                        · have heq : dlookup (m ++ [(k, Node.node sub2)]) kq =
                              dlookup m kq := by
                            rw [dlookup_append]
                            simp [dlookup_cons, hkq]
                          rw [getPathM_cons_congr heq q2]
                          exact hq

/-- A successful fold of insertions preserves previously reachable
leaves. -/
theorem foldIns_preserves {F : FlatS Key Leaf} :
    ∀ {m m2 : SM Key Leaf}, foldIns m F = some m2 →
      ∀ q w, getPathM m q = some w → getPathM m2 q = some w := by
  induction F with
  | nil =>
      intro m m2 h q w hq
      simp only [foldIns, Option.some.injEq] at h
      subst h; exact hq
  | cons qv F2 ih =>
      intro m m2 h q w hq
      rw [foldIns_cons] at h
      cases hI : insertPath m qv.1 qv.2 with
      | none => rw [hI] at h; simp at h
      | some m1 =>
          rw [hI] at h
          simp only [Option.some_bind] at h
          exact ih h q w ((insertPath_spec hI).2 q w hq)

/-- After a successful fold, every inserted entry is reachable at its
path. -/
theorem foldIns_mem {F : FlatS Key Leaf} :
    ∀ {m m2 : SM Key Leaf}, foldIns m F = some m2 →
      ∀ pv ∈ F, getPathM m2 pv.1 = some pv.2 := by
  induction F with
  | nil => intro m m2 h pv hpv; simp at hpv
  | cons qv F2 ih =>
      intro m m2 h pv hpv
      rw [foldIns_cons] at h
      cases hI : insertPath m qv.1 qv.2 with
      | none => rw [hI] at h; simp at h
      | some m1 =>
          rw [hI] at h
          simp only [Option.some_bind] at h
          rcases List.mem_cons.mp hpv with h1 | h1
          · subst h1
            exact foldIns_preserves h _ _ (insertPath_spec hI).1
          · exact ih h pv h1

/-- Unflattening rejects a flat state containing a strict-prefix pair of
paths. -/
theorem unflattenF_none_of_prefix_pair {F : FlatS Key Leaf} {p r : Path Key}
    {v w : Leaf} (hp : (p, v) ∈ F) (hq : (p ++ r, w) ∈ F) (hr : r ≠ []) :
    unflattenF F = none := by
  cases hU : unflattenF F with
  | none => rfl
  | some m =>
      rw [unflattenF] at hU
      have h1 := foldIns_mem hU (p, v) hp
      have h2 := foldIns_mem hU (p ++ r, w) hq
      have h3 := getPathM_append_ne_nil hr h1
      rw [h3] at h2
      simp at h2

end InsertSpec

section FlattenPathIff

/-- Under unique keys, every flattened entry resolves at its path. -/
theorem getPathM_of_mem_flattenM {m : SM Key Leaf} (hwf : wfKeysM m = true) :
    ∀ {p : Path Key} {v : Leaf}, (p, v) ∈ flattenM m →
      getPathM m p = some v := by
  induction m using flattenM.induct with
  | case1 => intro p v h; simp [flattenM] at h
  | case2 k0 w rest ih =>
      intro p v h
      simp only [wfKeysM, Bool.and_eq_true, Option.isNone_iff_eq_none] at hwf
      rw [flattenM] at h
      rcases List.mem_cons.mp h with h1 | h1
      · obtain ⟨rfl, rfl⟩ := Prod.mk.injEq .. ▸ h1
        simp [getPathM, dlookup_cons]
      · obtain ⟨kh, p2, rfl⟩ : ∃ kh p2, p = kh :: p2 := by
          cases p with
          | nil => exact absurd rfl (flattenM_path_ne_nil _ h1)
          | cons kh p2 => exact ⟨kh, p2, rfl⟩
        have hkh : kh ≠ k0 := by
          intro hc
          subst hc
          have h2 := flattenM_head_lookup _ h1 kh p2 rfl
          rw [hwf.1] at h2
          simp at h2
        have heq : dlookup ((k0, Node.leaf w) :: rest) kh = dlookup rest kh := by
          simp [dlookup_cons, hkh]
        rw [getPathM_cons_congr heq p2]
        exact ih hwf.2 h1
  | case3 k0 sub rest ihsub ih =>
      intro p v h
      simp only [wfKeysM, Bool.and_eq_true, Option.isNone_iff_eq_none] at hwf
      rw [flattenM] at h
      rcases List.mem_append.mp h with h1 | h1
      · obtain ⟨qv, hqv, hqe⟩ := List.mem_map.mp h1
        obtain ⟨qp, qv2⟩ := qv
        obtain ⟨hp, hv⟩ := Prod.mk.injEq .. ▸ hqe
        subst hp
        subst hv
        obtain ⟨q1, q2, rfl⟩ : ∃ q1 q2, qp = q1 :: q2 := by
          cases qp with
          | nil => exact absurd rfl (flattenM_path_ne_nil _ hqv)
          | cons q1 q2 => exact ⟨q1, q2, rfl⟩
        have hlk : dlookup ((k0, Node.node sub) :: rest) k0 =
            some (Node.node sub) := by
          simp [dlookup_cons]
        simp only [getPathM, hlk]
        exact ihsub hwf.1.2 hqv
      · obtain ⟨kh, p2, rfl⟩ : ∃ kh p2, p = kh :: p2 := by
          cases p with
          | nil => exact absurd rfl (flattenM_path_ne_nil _ h1)
          | cons kh p2 => exact ⟨kh, p2, rfl⟩
        have hkh : kh ≠ k0 := by
          intro hc
          subst hc
          have h2 := flattenM_head_lookup _ h1 kh p2 rfl
          rw [hwf.1.1] at h2
          simp at h2
        have heq : dlookup ((k0, Node.node sub) :: rest) kh =
            dlookup rest kh := by
          simp [dlookup_cons, hkh]
        rw [getPathM_cons_congr heq p2]
        exact ih hwf.2 h1

/-- Every path that resolves to a leaf appears in the flattening. -/
theorem mem_flattenM_of_getPathM {m : SM Key Leaf} :
    ∀ {p : Path Key} {v : Leaf}, getPathM m p = some v →
      (p, v) ∈ flattenM m := by
  induction m using flattenM.induct with
  | case1 =>
      intro p v h
      cases p with
      | nil => simp [getPathM] at h
      | cons k p2 => simp [getPathM, dlookup] at h
  | case2 k0 w rest ih =>
      intro p v h
      cases p with
      | nil => simp [getPathM] at h
      | cons kh p2 =>
          by_cases hkh : kh = k0
          · subst hkh
            cases p2 with
            | nil =>
                have hv : w = v := by simpa [getPathM, dlookup_cons] using h
                subst hv
                simp [flattenM]
            | cons q1 q2 => simp [getPathM, dlookup_cons] at h
          · have heq : dlookup ((k0, Node.leaf w) :: rest) kh =
                dlookup rest kh := by
              simp [dlookup_cons, hkh]
            rw [getPathM_cons_congr heq p2] at h
            rw [flattenM]
            exact List.mem_cons_of_mem _ (ih h)
  | case3 k0 sub rest ihsub ih =>
      intro p v h
      cases p with
      | nil => simp [getPathM] at h
      | cons kh p2 =>
          by_cases hkh : kh = k0
          · subst hkh
            cases p2 with
            | nil => simp [getPathM, dlookup_cons] at h
            | cons q1 q2 =>
                have h2 : getPathM sub (q1 :: q2) = some v := by
                  simpa [getPathM, dlookup_cons] using h
                rw [flattenM]
                refine List.mem_append_left _ ?_
                exact List.mem_map.mpr ⟨(q1 :: q2, v), ihsub h2, rfl⟩
          · have heq : dlookup ((k0, Node.node sub) :: rest) kh =
                dlookup rest kh := by
              simp [dlookup_cons, hkh]
            rw [getPathM_cons_congr heq p2] at h
            rw [flattenM]
            exact List.mem_append_right _ (ih h)

end FlattenPathIff

section SplitLemmas

/-- The predicate of filter `i`, the always-false predicate out of
range. -/
def predAt (preds : List (Path Key → Leaf → Bool)) (i : Nat) :
    Path Key → Leaf → Bool :=
  preds.getD i (fun _ _ => false)

theorem splitFlat_length (preds : List (Path Key → Leaf → Bool)) :
    ∀ flat : FlatS Key Leaf, (splitFlat preds flat).length = preds.length + 1 := by
  induction preds with
  | nil => intro flat; simp [splitFlat]
  | cons q rest ih => intro flat; simp [splitFlat, ih]

theorem getLastD_cons_irrel (b : α) (bs : List α) (d1 d2 : α) :
    (b :: bs).getLastD d1 = (b :: bs).getLastD d2 := by
  cases h : (b :: bs).getLast? with
  | none => simp at h
  | some x => simp [h]

theorem length_filter_add_not (p : α → Bool) (l : List α) :
    (l.filter p).length + (l.filter (fun a => !p a)).length = l.length := by
  induction l with
  | nil => simp
  | cons a t ih =>
      cases hp : p a <;> simp [List.filter_cons, hp] <;> omega

/-- The buckets of `splitFlat` jointly hold exactly the input entries:
their lengths sum to the input's length. -/
theorem splitFlat_sum_length (preds : List (Path Key → Leaf → Bool)) :
    ∀ flat : FlatS Key Leaf,
      ((splitFlat preds flat).map List.length).sum = flat.length := by
  induction preds with
  | nil => intro flat; simp [splitFlat]
  | cons q rest ih =>
      intro flat
      rw [splitFlat, List.map_cons, List.sum_cons, ih]
      exact length_filter_add_not _ _

/-- The remainder bucket holds exactly the entries matched by no
predicate. -/
theorem splitFlat_getLastD (preds : List (Path Key → Leaf → Bool)) :
    ∀ flat : FlatS Key Leaf,
      (splitFlat preds flat).getLastD [] =
        flat.filter (fun pv => preds.all (fun q => !q pv.1 pv.2)) := by
  induction preds with
  | nil => intro flat; simp [splitFlat]
  | cons q rest ih =>
      intro flat
      rw [splitFlat]
      have hne : splitFlat rest (flat.filter (fun pv => !q pv.1 pv.2)) ≠ [] := by
        intro hc
        have := splitFlat_length rest (flat.filter (fun pv => !q pv.1 pv.2))
        rw [hc] at this
        simp at this
      rw [List.getLastD_cons]
      cases hsf : splitFlat rest (flat.filter (fun pv => !q pv.1 pv.2)) with
      | nil => exact absurd hsf hne
      | cons b bs =>
          have h1 : (b :: bs).getLastD (flat.filter (fun pv => q pv.1 pv.2)) =
              (b :: bs).getLastD [] := getLastD_cons_irrel b bs _ _
          rw [h1, ← hsf, ih]
          rw [List.filter_filter]
          apply List.filter_congr
          intro pv hpv
          simp [Bool.and_comm]

/-- Bucket membership: an entry is in bucket `i` exactly when it is an
input entry, no earlier predicate matches it, and (for a non-remainder
bucket) predicate `i` matches it. -/
theorem splitFlat_mem_iff (preds : List (Path Key → Leaf → Bool)) :
    ∀ (flat : FlatS Key Leaf) (i : Nat), i < preds.length + 1 →
      ∀ pv : Path Key × Leaf,
        (pv ∈ (splitFlat preds flat).getD i [] ↔
          pv ∈ flat ∧ (∀ j, j < i → predAt preds j pv.1 pv.2 = false) ∧
            (i < preds.length → predAt preds i pv.1 pv.2 = true)) := by
  induction preds with
  | nil =>
      intro flat i hi pv
      have hi0 : i = 0 := by simp at hi; omega
      subst hi0
      simp [splitFlat, predAt]
  | cons q rest ih =>
      intro flat i hi pv
      cases i with
      | zero =>
          simp only [splitFlat, List.getD_cons_zero, List.mem_filter]
          constructor
          · rintro ⟨h1, h2⟩
            refine ⟨h1, ?_, ?_⟩
            · intro j hj; omega
            · intro hlt
              simpa [predAt] using h2
          · rintro ⟨h1, -, h3⟩
            refine ⟨h1, ?_⟩
            simpa [predAt] using h3 (by simp)
      | succ i2 =>
          rw [splitFlat, List.getD_cons_succ]
          rw [ih (flat.filter (fun pv => !q pv.1 pv.2)) i2 (by simp at hi; omega) pv]
          simp only [List.mem_filter]
          constructor
          · rintro ⟨⟨h1, hq⟩, hjs, hlast⟩
            refine ⟨h1, ?_, ?_⟩
            · intro j hj
              cases j with
              | zero => simpa [predAt] using hq
              | succ j2 =>
                  have := hjs j2 (by omega)
                  simpa [predAt] using this
            · intro hlt
              have := hlast (by simpa using hlt)
              simpa [predAt] using this
          · rintro ⟨h1, hjs, hlast⟩
            refine ⟨⟨h1, ?_⟩, ?_, ?_⟩
            · have := hjs 0 (by omega)
              simpa [predAt] using this
            · intro j2 hj2
              have := hjs (j2 + 1) (by omega)
              simpa [predAt] using this
            · intro hlt
              have := hlast (by simpa using hlt)
              simpa [predAt] using this

/-- Entries of distinct buckets never share a path, given distinct input
paths (ordered-index auxiliary step). -/
theorem splitFlat_disjoint_lt {preds : List (Path Key → Leaf → Bool)}
    {flat : FlatS Key Leaf} (hnd : (flat.map Prod.fst).Nodup)
    {i j : Nat} (hij : i < j) (hj : j < preds.length + 1)
    {p : Path Key} {v w : Leaf}
    (hv : (p, v) ∈ (splitFlat preds flat).getD i [])
    (hw : (p, w) ∈ (splitFlat preds flat).getD j []) : False := by
  obtain ⟨hv1, -, hv3⟩ :=
    (splitFlat_mem_iff preds flat i (by omega) (p, v)).mp hv
  obtain ⟨hw1, hw2, -⟩ :=
    (splitFlat_mem_iff preds flat j hj (p, w)).mp hw
  have hvw : v = w := value_eq_of_nodup_keys hnd hv1 hw1
  subst hvw
  have hit : predAt preds i p v = true := hv3 (by omega)
  have hif : predAt preds i p v = false := hw2 i hij
  rw [hit] at hif
  exact absurd hif (by simp)

end SplitLemmas

section OrderingLemmas

/-- A wildcard-like filter followed somewhere by a non-wildcard-like
filter trips the validation loop. -/
theorem orderingViolation_append {w : Filter Key Leaf}
    (hw : isWildcardLike w = true) {post : List (Filter Key Leaf)}
    (hpost : post.all isWildcardLike = false) :
    ∀ pre : List (Filter Key Leaf),
      orderingViolation (pre ++ w :: post) = true := by
  intro pre
  induction pre with
  | nil =>
      cases post with
      | nil => simp at hpost
      | cons f2 post2 =>
          rw [List.nil_append, orderingViolation]
          simp [hw, hpost]
  | cons f pre2 ih =>
      rw [List.cons_append, orderingViolation, ih]
      simp

/-- A filter list whose members are all wildcard-like passes
validation. -/
theorem orderingViolation_all_wildcardish {post : List (Filter Key Leaf)}
    (h : post.all isWildcardLike = true) : orderingViolation post = false := by
  induction post with
  | nil => rfl
  | cons f rest ih =>
      simp only [List.all_cons, Bool.and_eq_true] at h
      rw [orderingViolation, ih h.2]
      simp [h.2]

/-- Validation passes when no filter before the trailing wildcard-like
block is wildcard-like. -/
theorem orderingViolation_clean {pre post : List (Filter Key Leaf)}
    (hpre : ∀ f ∈ pre, isWildcardLike f = false)
    (hpost : post.all isWildcardLike = true) :
    orderingViolation (pre ++ post) = false := by
  induction pre with
  | nil => simpa using orderingViolation_all_wildcardish hpost
  | cons f pre2 ih =>
      rw [List.cons_append, orderingViolation]
      rw [ih (fun g hg => hpre g (List.mem_cons_of_mem _ hg))]
      simp [hpre f (List.mem_cons_self _ _)]

/-- With validly ordered filters, `splitOp` reduces to the emptiness
test on the remainder bucket. -/
theorem splitOp_eq_ite (m : SM Key Leaf) {filters : List (Filter Key Leaf)}
    (hov : orderingViolation filters = false) :
    splitOp m filters =
      if ((splitFlat (filters.map toPredicate) (flattenM m)).getLastD []).isEmpty
      then Except.ok (splitFlat (filters.map toPredicate) (flattenM m)).dropLast
      else Except.error SplitErr.nonExhaustive := by
  rw [splitOp]
  have hcore : splitStateCore m filters =
      Except.ok (splitFlat (filters.map toPredicate) (flattenM m)) := by
    simp [splitStateCore, hov]
  rw [hcore]

end OrderingLemmas

section MergeLemmas

theorem dictUpdate_cons (acc : FlatS Key Leaf) (pv : Path Key × Leaf)
    (rest : FlatS Key Leaf) :
    dictUpdate acc (pv :: rest) = dictUpdate (dinsert acc pv.1 pv.2) rest := rfl

/-- Last write wins: looking a path up in an overlaid dict prefers the
right-hand (later) operand. -/
theorem dictUpdate_dlookup {b : FlatS Key Leaf}
    (hnd : (b.map Prod.fst).Nodup) :
    ∀ (a : FlatS Key Leaf) (p : Path Key),
      dlookup (dictUpdate a b) p = (dlookup b p).or (dlookup a p) := by
  induction b with
  | nil => intro a p; simp [dictUpdate, dlookup, Option.or]
  | cons pv rest ih =>
      intro a p
      simp only [List.map_cons, List.nodup_cons] at hnd
      rw [dictUpdate_cons, ih hnd.2]
      obtain ⟨q, w⟩ := pv
      by_cases hp : p = q
      · subst hp
        have hb : dlookup rest p = none := by
          rw [dlookup_eq_none_iff]
          exact hnd.1
        rw [hb]
        simp [dlookup_cons, Option.or]
      · rw [dlookup_dinsert_ne _ _ hp]
        simp [dlookup_cons, hp]

/-- Updating with entries whose keys are all fresh appends them. -/
theorem dictUpdate_fresh {b : FlatS Key Leaf} (hnd : (b.map Prod.fst).Nodup) :
    ∀ a : FlatS Key Leaf, (∀ p ∈ b.map Prod.fst, dlookup a p = none) →
      dictUpdate a b = a ++ b := by
  induction b with
  | nil => intro a h; simp [dictUpdate]
  | cons pv rest ih =>
      intro a h
      simp only [List.map_cons, List.nodup_cons] at hnd
      obtain ⟨q, w⟩ := pv
      rw [dictUpdate_cons]
      rw [dinsert_of_dlookup_none _ (h q (by simp))]
      rw [ih hnd.2 (a ++ [(q, w)]) ?_]
      · simp
      · intro p hp
        have hpq : p ≠ q := by
          intro hc
          subst hc
          exact hnd.1 hp
        rw [dlookup_append, h p (by simp [hp])]
        simp [dlookup_cons, hpq, Option.or]

/-- Overlaying onto the empty dict copies a duplicate-free flat state
verbatim. -/
theorem dictUpdate_nil {b : FlatS Key Leaf} (hnd : (b.map Prod.fst).Nodup) :
    dictUpdate [] b = b := by
  have := dictUpdate_fresh hnd [] (by intro p hp; simp [dlookup])
  simpa using this

end MergeLemmas

section HeapLemmas

theorem getD_set_ne {h : List α} {a b : Nat} (x d : α) (hne : b ≠ a) :
    (h.set a x).getD b d = h.getD b d := by
  induction h generalizing a b with
  | nil => simp
  | cons y t ih =>
      cases a with
      | zero =>
          cases b with
          | zero => exact absurd rfl hne
          | succ b2 => simp [List.set]
      | succ a2 =>
          cases b with
          | zero => simp [List.set]
          | succ b2 => simpa [List.set] using ih (fun hc => hne (by rw [hc]))

theorem getD_set_self {h : List α} {a : Nat} (x d : α) (hlt : a < h.length) :
    (h.set a x).getD a d = x := by
  induction h generalizing a with
  | nil => simp at hlt
  | cons y t ih =>
      cases a with
      | zero => simp [List.set]
      | succ a2 =>
          simp only [List.length_cons] at hlt
          simpa [List.set] using ih (by omega)

end HeapLemmas

theorem sum_length_dropLast {β : Type} {bs : List (List β)}
    (h : bs.getLastD [] = []) :
    ((bs.dropLast).map List.length).sum = (bs.map List.length).sum := by
  induction bs with
  | nil => simp
  | cons b bs2 ih =>
      cases bs2 with
      | nil =>
          simp only [List.getLastD_cons, List.getLastD_nil] at h
          simp [h]
      | cons c cs =>
          have h2 : (c :: cs).getLastD [] = [] := by
            rw [List.getLastD_cons] at h
            exact (getLastD_cons_irrel c cs [] b).trans h
          rw [List.dropLast_cons₂]
          simp only [List.map_cons, List.sum_cons]
          rw [ih h2]
          simp

/-- C1 counterexample: the container with a single empty sub-container
has unique keys at every level, its flattening is empty (so, vacuously,
no leaf path is a strict prefix of another), yet unflattening its
flattening yields the empty container rather than the original: the
round trip as claimed fails for it. -/
theorem claim_c1_cex :
    wfKeysM [((0 : Nat), Node.node ([] : SM Nat Nat))] = true ∧
      flattenM [((0 : Nat), Node.node ([] : SM Nat Nat))] = [] ∧
      unflattenF (flattenM [((0 : Nat), Node.node ([] : SM Nat Nat))]) ≠
        some [((0 : Nat), Node.node ([] : SM Nat Nat))] := by
  refine ⟨by simp [wfKeysM, dlookup], by simp [flattenM], ?_⟩
  have h1 : flattenM [((0 : Nat), Node.node ([] : SM Nat Nat))] = [] := by
    simp [flattenM]
  have h2 : unflattenF ([] : FlatS Nat Nat) = some [] := by
    simp [unflattenF, foldIns]
  rw [h1, h2]
  intro hc
  simp at hc

/-- C1 (amended): for every well-formed nested container — unique keys
at every level and, additionally, no empty sub-container — unflattening
the result of flattening yields the container back exactly: the same
keys at every nesting level and the same leaf at every path. -/
theorem claim_c1_round_trip {m : SM Key Leaf} (h : wfState m = true) :
    unflattenF (flattenM m) = some m :=
  unflattenF_flattenM h

theorem claim_c1_round_trip_witness :
    wfState [((0 : Nat), Node.node [(1, Node.leaf (5 : Nat))]), (2, Node.leaf 7)]
        = true ∧
      unflattenF (flattenM
          [((0 : Nat), Node.node [(1, Node.leaf (5 : Nat))]), (2, Node.leaf 7)]) =
        some [((0 : Nat), Node.node [(1, Node.leaf (5 : Nat))]), (2, Node.leaf 7)] := by
  have h : wfState
      [((0 : Nat), Node.node [(1, Node.leaf (5 : Nat))]), (2, Node.leaf 7)] =
      true := by
    simp [wfState, wfKeysM, neNodes, dlookup]
  exact ⟨h, claim_c1_round_trip h⟩

/-- C2: partitioning with filters ending in a Wildcard assigns each
flattened (path, leaf) pair to the bucket of the first filter whose
predicate matches it (the Wildcard matching unconditionally, unmatched
pairs falling to the trailing remainder bucket, which the trailing
Wildcard leaves empty); the per-filter buckets have pairwise disjoint
path sets and their lengths sum to the container's leaf count. -/
theorem claim_c2_partition (m : SM Key Leaf) (fs : List (Filter Key Leaf))
    (hwf : wfKeysM m = true) :
    (splitFlat ((fs ++ [Filter.wildcard]).map toPredicate)
        (flattenM m)).length = (fs ++ [Filter.wildcard]).length + 1 ∧
    (splitFlat ((fs ++ [Filter.wildcard]).map toPredicate)
        (flattenM m)).getLastD [] = [] ∧
    (((splitFlat ((fs ++ [Filter.wildcard]).map toPredicate)
        (flattenM m)).dropLast.map List.length).sum = leafCountM m) ∧
    (∀ i j, i ≠ j →
      ∀ (p : Path Key) (v w : Leaf),
        (p, v) ∈ (splitFlat ((fs ++ [Filter.wildcard]).map toPredicate)
          (flattenM m)).getD i [] →
        (p, w) ∈ (splitFlat ((fs ++ [Filter.wildcard]).map toPredicate)
          (flattenM m)).getD j [] → False) ∧
    (∀ i, i < ((fs ++ [Filter.wildcard]).map toPredicate).length + 1 →
      ∀ pv : Path Key × Leaf,
        (pv ∈ (splitFlat ((fs ++ [Filter.wildcard]).map toPredicate)
            (flattenM m)).getD i [] ↔
          pv ∈ flattenM m ∧
            (∀ j, j < i →
              predAt ((fs ++ [Filter.wildcard]).map toPredicate) j pv.1 pv.2
                = false) ∧
            (i < ((fs ++ [Filter.wildcard]).map toPredicate).length →
              predAt ((fs ++ [Filter.wildcard]).map toPredicate) i pv.1 pv.2
                = true))) ∧
    (∀ (p : Path Key) (v : Leaf),
      toPredicate (Filter.wildcard : Filter Key Leaf) p v = true) := by
  have hnd := flattenM_paths_nodup hwf
  have hrem : (splitFlat ((fs ++ [Filter.wildcard]).map toPredicate)
      (flattenM m)).getLastD [] = [] := by
    rw [splitFlat_getLastD]
    apply List.filter_eq_nil_iff.mpr
    intro pv hpv
    simp [List.all_append, toPredicate]
  have hlen := splitFlat_length ((fs ++ [Filter.wildcard]).map toPredicate)
    (flattenM m)
  refine ⟨?_, hrem, ?_, ?_, ?_, fun p v => rfl⟩
  · rw [hlen]
    simp
  · rw [sum_length_dropLast hrem]
    exact (splitFlat_sum_length ((fs ++ [Filter.wildcard]).map toPredicate)
      (flattenM m)).trans (flattenM_length m)
  · intro i j hij p v w hv hw
    have hib : i < ((fs ++ [Filter.wildcard]).map toPredicate).length + 1 := by
      by_contra hc
      rw [List.getD_eq_default] at hv
      · simp at hv
      · rw [hlen]; omega
    have hjb : j < ((fs ++ [Filter.wildcard]).map toPredicate).length + 1 := by
      by_contra hc
      rw [List.getD_eq_default] at hw
      · simp at hw
      · rw [hlen]; omega
    rcases Nat.lt_trichotomy i j with hlt | heq | hgt
    · exact splitFlat_disjoint_lt hnd hlt hjb hv hw
    · exact hij heq
    · exact splitFlat_disjoint_lt hnd hgt hib hw hv
  · intro i hi pv
    exact splitFlat_mem_iff _ (flattenM m) i hi pv

theorem claim_c2_partition_witness :
    wfKeysM [((0 : Nat), Node.leaf (1 : Nat)), (2, Node.leaf 3)] = true ∧
      (((splitFlat
          (([Filter.pred (fun p _ => decide (p = [0]))] ++
            [Filter.wildcard]).map toPredicate)
          (flattenM [((0 : Nat), Node.leaf (1 : Nat)),
            (2, Node.leaf 3)])).dropLast.map List.length).sum =
        leafCountM [((0 : Nat), Node.leaf (1 : Nat)), (2, Node.leaf 3)]) := by
  have hwf : wfKeysM [((0 : Nat), Node.leaf (1 : Nat)), (2, Node.leaf 3)] =
      true := by
    simp [wfKeysM, dlookup]
  exact ⟨hwf, (claim_c2_partition _ _ hwf).2.2.1⟩

/-- C3: with validly ordered filters, `split` fails with the
non-exhaustive error exactly when the remainder bucket is non-empty
(producing no output), and otherwise returns the per-filter buckets;
`filter` with the same filters never raises that error: it always
returns one container per filter and discards the remainder bucket
unconditionally. -/
theorem claim_c3_split_vs_filter (m : SM Key Leaf)
    (fs : List (Filter Key Leaf)) :
    (filterOp m fs ≠ Except.error SplitErr.nonExhaustive) ∧
    (orderingViolation fs = false →
      (splitOp m fs = Except.error SplitErr.nonExhaustive ↔
        (splitFlat (fs.map toPredicate) (flattenM m)).getLastD [] ≠ []) ∧
      filterOp m fs =
        Except.ok (splitFlat (fs.map toPredicate) (flattenM m)).dropLast ∧
      (splitFlat (fs.map toPredicate) (flattenM m)).dropLast.length
        = fs.length ∧
      ((splitFlat (fs.map toPredicate) (flattenM m)).getLastD [] = [] →
        splitOp m fs =
          Except.ok (splitFlat (fs.map toPredicate) (flattenM m)).dropLast)) := by
  constructor
  · cases hov : orderingViolation fs with
    | true =>
        simp [filterOp, splitStateCore, hov]
    | false =>
        simp [filterOp, splitStateCore, hov]
  · intro hov
    have hcore : splitStateCore m fs =
        Except.ok (splitFlat (fs.map toPredicate) (flattenM m)) := by
      simp [splitStateCore, hov]
    refine ⟨?_, ?_, ?_, ?_⟩
    · rw [splitOp, hcore]
      cases hemp : ((splitFlat (fs.map toPredicate)
          (flattenM m)).getLastD []).isEmpty with
      | true =>
          simp only [hemp, if_true]
          constructor
          · intro hc; simp at hc
          · intro hc
            exact absurd (List.isEmpty_iff.mp hemp) hc
      | false =>
          simp only [hemp]
          constructor
          · intro hc
            intro he
            rw [he] at hemp
            simp at hemp
          · intro hc
            simp
    · rw [filterOp, hcore]
    · rw [List.length_dropLast, splitFlat_length]
      simp
    · intro he
      rw [splitOp, hcore]
      have : ((splitFlat (fs.map toPredicate)
          (flattenM m)).getLastD []).isEmpty = true := by
        rw [he]; rfl
      simp only [this, if_true]

theorem claim_c3_witness :
    orderingViolation ([Filter.ofBool false] : List (Filter Nat Nat)) = false ∧
      splitOp [((0 : Nat), Node.leaf (1 : Nat))] [Filter.ofBool false] =
        Except.error SplitErr.nonExhaustive ∧
      filterOp [((0 : Nat), Node.leaf (1 : Nat))] [Filter.ofBool false] ≠
        Except.error SplitErr.nonExhaustive := by
  have hov : orderingViolation ([Filter.ofBool false] : List (Filter Nat Nat))
      = false := by
    simp [orderingViolation, isWildcardLike]
  have hrem : (splitFlat
      (([Filter.ofBool false] : List (Filter Nat Nat)).map toPredicate)
      (flattenM [((0 : Nat), Node.leaf (1 : Nat))])).getLastD [] ≠ [] := by
    simp [splitFlat, toPredicate, flattenM]
  exact ⟨hov, ((claim_c3_split_vs_filter _ _).2 hov).1.mpr hrem,
    (claim_c3_split_vs_filter _ _).1⟩

/-- C4 counterexample: the Wildcard appears at index 0, before the last
filter, and the later filter (the literal `True`) is not itself the
Wildcard — so the claim predicts the ordering error — yet validation
passes and split succeeds, because the source treats `True` as
wildcard-like; the claim's "at most once and only as the last filter" is
also violated by this succeeding call. -/
theorem claim_c4_cex :
    (Filter.ofBool true ≠ (Filter.wildcard : Filter Nat Nat)) ∧
      splitOp [((0 : Nat), Node.leaf (1 : Nat))]
          [Filter.wildcard, Filter.ofBool true] =
        Except.ok [[([0], 1)], []] := by
  constructor
  · intro hc
    simp at hc
  · simp [splitOp, splitStateCore, orderingViolation, isWildcardLike,
      splitFlat, toPredicate, flattenM]

/-- C4 (amended): a wildcard-like filter (the Wildcard `...` or the
literal `True`) may appear before the last position only when every
later filter is also wildcard-like; otherwise the whole operation —
split and filter alike — fails with the ordering error and produces no
partition; `split(f1, Wildcard)` with the Wildcard last always
succeeds. -/
theorem claim_c4_ordering (m : SM Key Leaf) :
    (∀ (pre post : List (Filter Key Leaf)) (w : Filter Key Leaf),
      isWildcardLike w = true → post.all isWildcardLike = false →
        splitOp m (pre ++ w :: post) = Except.error SplitErr.ordering ∧
          filterOp m (pre ++ w :: post) = Except.error SplitErr.ordering) ∧
    (∀ f1 : Filter Key Leaf,
      splitOp m [f1, Filter.wildcard] =
        Except.ok ((splitFlat ([f1, Filter.wildcard].map toPredicate)
          (flattenM m)).dropLast)) := by
  constructor
  · intro pre post w hw hpost
    have hov := orderingViolation_append hw hpost pre
    constructor
    · simp [splitOp, splitStateCore, hov]
    · simp [filterOp, splitStateCore, hov]
  · intro f1
    have hov : orderingViolation [f1, Filter.wildcard] = false := by
      rw [orderingViolation, orderingViolation, orderingViolation]
      simp [isWildcardLike]
    have hcore : splitStateCore m [f1, Filter.wildcard] =
        Except.ok (splitFlat ([f1, Filter.wildcard].map toPredicate)
          (flattenM m)) := by
      simp [splitStateCore, hov]
    have hrem : (splitFlat ([f1, Filter.wildcard].map toPredicate)
        (flattenM m)).getLastD [] = [] := by
      rw [splitFlat_getLastD]
      apply List.filter_eq_nil_iff.mpr
      intro pv hpv
      simp [toPredicate]
    rw [splitOp, hcore]
    have hemp : ((splitFlat ([f1, Filter.wildcard].map toPredicate)
        (flattenM m)).getLastD []).isEmpty = true := by
      rw [hrem]; rfl
    simp only [hemp, if_true]

theorem claim_c4_ordering_witness :
    splitOp [((0 : Nat), Node.leaf (1 : Nat))]
        ([] ++ Filter.wildcard :: [Filter.pred (fun _ _ => true)]) =
      Except.error SplitErr.ordering ∧
      splitOp [((0 : Nat), Node.leaf (1 : Nat))]
          [Filter.ofBool false, Filter.wildcard] =
        Except.ok ((splitFlat
          ([Filter.ofBool false, Filter.wildcard].map toPredicate)
          (flattenM [((0 : Nat), Node.leaf (1 : Nat))])).dropLast) := by
  have hall : ([Filter.pred (fun _ _ => true)] :
      List (Filter Nat Nat)).all isWildcardLike = false := by
    simp [isWildcardLike]
  exact ⟨((claim_c4_ordering _).1 [] [Filter.pred (fun _ _ => true)]
      Filter.wildcard rfl hall).1,
    (claim_c4_ordering _).2 (Filter.ofBool false)⟩

/-- C5: merge of a single state returns it unchanged; merge of two
states overlays their flat states in operand order with
last-write-wins on path collisions (a later operand overrides an
earlier one at the same path) and unflattens the result; in particular
merging two states holding different leaves at the same nested path
keeps the second, and merging disjoint states yields their union. -/
theorem claim_c5_merge (a b : SM Key Leaf) (ha : wfKeysM a = true)
    (hb : wfKeysM b = true) :
    mergeM [a] = some a ∧
    mergeM [a, b] = unflattenF (dictUpdate (flattenM a) (flattenM b)) ∧
    (∀ p : Path Key,
      dlookup (dictUpdate (flattenM a) (flattenM b)) p =
        ((dlookup (flattenM b) p).or (dlookup (flattenM a) p))) ∧
    mergeM [[((0 : Nat), Node.node [(1, Node.leaf (1 : Nat))])],
        [(0, Node.node [(1, Node.leaf 2)])]] =
      some [(0, Node.node [(1, Node.leaf 2)])] ∧
    mergeM [[((0 : Nat), Node.leaf (1 : Nat))], [(2, Node.leaf 2)]] =
      some [(0, Node.leaf 1), (2, Node.leaf 2)] := by
  refine ⟨rfl, ?_, ?_, ?_, ?_⟩
  · have h1 : mergeM [a, b] =
        unflattenF (dictUpdate (dictUpdate [] (flattenM a)) (flattenM b)) :=
      rfl
    rw [h1, dictUpdate_nil (flattenM_paths_nodup ha)]
  · intro p
    exact dictUpdate_dlookup (flattenM_paths_nodup hb) (flattenM a) p
  · simp [mergeM, mergeFlats, dictUpdate, dinsert, unflattenF, foldIns,
      insertPath, dlookup, flattenM]
  · simp [mergeM, mergeFlats, dictUpdate, dinsert, unflattenF, foldIns,
      insertPath, dlookup, flattenM]

theorem claim_c5_merge_witness :
    wfKeysM [((0 : Nat), Node.leaf (1 : Nat))] = true ∧
      mergeM [[((0 : Nat), Node.leaf (1 : Nat))]] =
        some [((0 : Nat), Node.leaf (1 : Nat))] := by
  have h : wfKeysM [((0 : Nat), Node.leaf (1 : Nat))] = true := by
    simp [wfKeysM, dlookup]
  exact ⟨h, (claim_c5_merge _ [] h (by simp [wfKeysM])).1⟩

/-- C6: difference returns the left operand unchanged when the right is
empty, and otherwise unflattens exactly the entries of the left flat
state whose path is absent from the right flat state — removal depends
only on path membership, never on leaf values, so right operands with
equal path sets subtract equally; union likewise returns the left
operand unchanged when the right is empty. -/
theorem claim_c6_difference_union (a b b2 : SM Key Leaf) :
    subM a [] = some a ∧
    unionM a [] = some a ∧
    (b ≠ [] → subM a b = unflattenF ((flattenM a).filter
      (fun pv => (dlookup (flattenM b) pv.1).isNone))) ∧
    (b ≠ [] → b2 ≠ [] →
      (flattenM b).map Prod.fst = (flattenM b2).map Prod.fst →
      subM a b = subM a b2) := by
  have hsub : ∀ c : SM Key Leaf, c ≠ [] →
      subM a c = unflattenF ((flattenM a).filter
        (fun pv => (dlookup (flattenM c) pv.1).isNone)) := by
    intro c hc
    have hemp : c.isEmpty = false := by
      cases c with
      | nil => exact absurd rfl hc
      | cons x t => rfl
    simp [subM, hemp]
  refine ⟨rfl, rfl, hsub b, ?_⟩
  intro hb hb2 hkeys
  rw [hsub b hb, hsub b2 hb2]
  have hpt : ∀ pv : Path Key × Leaf, pv ∈ flattenM a →
      (dlookup (flattenM b) pv.1).isNone =
        (dlookup (flattenM b2) pv.1).isNone := by
    intro pv hpv
    by_cases hmem : pv.1 ∈ (flattenM b2).map Prod.fst
    · have h1 : ¬ dlookup (flattenM b) pv.1 = none := by
        intro hc
        rw [dlookup_eq_none_iff, hkeys] at hc
        exact hc hmem
      have h2 : ¬ dlookup (flattenM b2) pv.1 = none := by
        intro hc
        rw [dlookup_eq_none_iff] at hc
        exact hc hmem
      cases hd1 : dlookup (flattenM b) pv.1 with
      | none => exact absurd hd1 h1
      | some x =>
          cases hd2 : dlookup (flattenM b2) pv.1 with
          | none => exact absurd hd2 h2
          | some y => rfl
    · have h1 : dlookup (flattenM b) pv.1 = none := by
        rw [dlookup_eq_none_iff, hkeys]
        exact hmem
      have h2 : dlookup (flattenM b2) pv.1 = none := by
        rw [dlookup_eq_none_iff]
        exact hmem
      rw [h1, h2]
  rw [List.filter_congr hpt]

theorem claim_c6_witness :
    ([((1 : Nat), Node.leaf (99 : Nat))] : SM Nat Nat) ≠ [] ∧
      subM [((0 : Nat), Node.leaf (1 : Nat)), (1, Node.leaf 2)]
          [(1, Node.leaf 99)] =
        unflattenF ((flattenM
            [((0 : Nat), Node.leaf (1 : Nat)), (1, Node.leaf 2)]).filter
          (fun pv =>
            (dlookup (flattenM [((1 : Nat), Node.leaf (99 : Nat))])
              pv.1).isNone)) := by
  have hne : ([((1 : Nat), Node.leaf (99 : Nat))] : SM Nat Nat) ≠ [] := by
    simp
  exact ⟨hne,
    (claim_c6_difference_union
      [((0 : Nat), Node.leaf (1 : Nat)), (1, Node.leaf 2)]
      [(1, Node.leaf 99)] []).2.2.1 hne⟩

/-- C7: indexing returns a view of the stored sub-mapping — the very
same heap object, no copy — when the stored value is a mapping, returns
the leaf directly when it is not, and fails with a lookup error when the
key is absent; the view shares storage with the parent: mutating the
sub-mapping through its address is seen when reading through the
parent. -/
theorem claim_c7_getitem (h : Heap Key Leaf) (a : Nat) (k : Key) :
    (∀ a2, dlookup (h.getD a []) k = some (HVal.ref a2) →
      getItemH h a k = some (GetR.stateAt a2)) ∧
    (∀ v, dlookup (h.getD a []) k = some (HVal.leaf v) →
      getItemH h a k = some (GetR.leafV v)) ∧
    (dlookup (h.getD a []) k = none → getItemH h a k = none) ∧
    (∀ (a2 : Nat) (k2 : Key) (v2 : Leaf),
      getItemH h a k = some (GetR.stateAt a2) → a ≠ a2 → a2 < h.length →
      getItemH (setItemH h a2 k2 (HVal.leaf v2)) a2 k2 =
          some (GetR.leafV v2) ∧
        getItemH (setItemH h a2 k2 (HVal.leaf v2)) a k =
          some (GetR.stateAt a2)) := by
  refine ⟨?_, ?_, ?_, ?_⟩
  · intro a2 hl
    rw [getItemH, hl]
  · intro v hl
    rw [getItemH, hl]
  · intro hl
    rw [getItemH, hl]
  · intro a2 k2 v2 hget hne hlt
    rw [getItemH] at hget
    have hl : dlookup (h.getD a []) k = some (HVal.ref a2) := by
      cases hd : dlookup (h.getD a []) k with
      | none => rw [hd] at hget; simp at hget
      | some x =>
          cases x with
          | ref a3 =>
              rw [hd] at hget
              simp at hget
              subst hget
              rfl
          | leaf v3 => rw [hd] at hget; simp at hget
    constructor
    · have hd2 : (setItemH h a2 k2 (HVal.leaf v2)).getD a2 [] =
          dinsert (h.getD a2 []) k2 (HVal.leaf v2) := by
        rw [setItemH]
        exact getD_set_self _ _ hlt
      rw [getItemH, hd2, dlookup_dinsert_self]
    · have hd3 : (setItemH h a2 k2 (HVal.leaf v2)).getD a [] =
          h.getD a [] := by
        rw [setItemH]
        exact getD_set_ne _ _ hne
      rw [getItemH, hd3, hl]

theorem claim_c7_getitem_witness :
    getItemH ([[(0, HVal.ref 1)], [(5, HVal.leaf 9)]] : Heap Nat Nat) 0 0 =
        some (GetR.stateAt 1) ∧
      getItemH (setItemH ([[(0, HVal.ref 1)], [(5, HVal.leaf 9)]] : Heap Nat Nat)
          1 7 (HVal.leaf 3)) 1 7 = some (GetR.leafV 3) ∧
      getItemH (setItemH ([[(0, HVal.ref 1)], [(5, HVal.leaf 9)]] : Heap Nat Nat)
          1 7 (HVal.leaf 3)) 0 0 = some (GetR.stateAt 1) := by
  have hget : getItemH ([[(0, HVal.ref 1)], [(5, HVal.leaf 9)]] : Heap Nat Nat)
      0 0 = some (GetR.stateAt 1) :=
    (claim_c7_getitem _ 0 0).1 1 (by simp [dlookup])
  have hmut := (claim_c7_getitem
      ([[(0, HVal.ref 1)], [(5, HVal.leaf 9)]] : Heap Nat Nat) 0 0).2.2.2
    1 7 3 hget (by simp) (by simp)
  exact ⟨hget, hmut.1, hmut.2⟩

/-- C8: flattening emits exactly one entry per leaf of the whole tree —
an entry exists for a path precisely when a leaf sits at that path, so
intermediate nodes get no entry — with pairwise distinct paths, and the
entry count equals the leaf count; the emission order is the depth-first
key-order traversal (which is how `flattenM` is defined). -/
theorem claim_c8_flatten (m : SM Key Leaf) (hwf : wfKeysM m = true) :
    (∀ (p : Path Key) (v : Leaf),
      (p, v) ∈ flattenM m ↔ getPathM m p = some v) ∧
    (flattenM m).length = leafCountM m ∧
    ((flattenM m).map Prod.fst).Nodup := by
  refine ⟨?_, flattenM_length m, flattenM_paths_nodup hwf⟩
  intro p v
  constructor
  · exact getPathM_of_mem_flattenM hwf
  · exact mem_flattenM_of_getPathM

theorem claim_c8_flatten_witness :
    wfKeysM [((0 : Nat), Node.node [(1, Node.leaf (5 : Nat))]),
        (2, Node.leaf 7)] = true ∧
      (flattenM [((0 : Nat), Node.node [(1, Node.leaf (5 : Nat))]),
          (2, Node.leaf 7)]).length =
        leafCountM [((0 : Nat), Node.node [(1, Node.leaf (5 : Nat))]),
          (2, Node.leaf 7)] := by
  have hwf : wfKeysM [((0 : Nat), Node.node [(1, Node.leaf (5 : Nat))]),
      (2, Node.leaf 7)] = true := by
    simp [wfKeysM, dlookup]
  exact ⟨hwf, (claim_c8_flatten _ hwf).2.1⟩

/-- C9: unflattening rejects (with an error, producing no container) any
flat state in which some path is a strict prefix of another path, and on
conforming inputs it rebuilds the nested container, grouping paths on
shared key prefixes: the flattening of any well-formed container is
rebuilt exactly. -/
theorem claim_c9_unflatten_reject :
    (∀ (F : FlatS Key Leaf) (p r : Path Key) (v w : Leaf), r ≠ [] →
      (p, v) ∈ F → (p ++ r, w) ∈ F → unflattenF F = none) ∧
    (∀ m : SM Key Leaf, wfState m = true → unflattenF (flattenM m) = some m) := by
  constructor
  · intro F p r v w hr hp hq
    exact unflattenF_none_of_prefix_pair hp hq hr
  · intro m hm
    exact unflattenF_flattenM hm

theorem claim_c9_unflatten_reject_witness :
    unflattenF [(([0] : List Nat), (1 : Nat)), ([0, 1], 2)] = none :=
  (claim_c9_unflatten_reject).1
    ([([0], 1), ([0, 1], 2)] : FlatS Nat Nat) [0] [1] 1 2
    (by simp) (by simp) (by simp)

/-- C10: the literal boolean `True` is treated exactly like the Wildcard
sentinel in the ordering validation of split and filter: a `True` filter
before a non-wildcard-like filter raises the same ordering error, and
any number of consecutive trailing wildcard-like filters (any mix of
`...` and `True`) passes validation, so the wildcard need not be
unique. -/
theorem claim_c10_true_wildcard (m : SM Key Leaf) :
    isWildcardLike (Filter.ofBool true : Filter Key Leaf) = true ∧
    isWildcardLike (Filter.wildcard : Filter Key Leaf) = true ∧
    (∀ pre post : List (Filter Key Leaf),
      post.all isWildcardLike = false →
        splitOp m (pre ++ Filter.ofBool true :: post) =
            Except.error SplitErr.ordering ∧
          filterOp m (pre ++ Filter.ofBool true :: post) =
            Except.error SplitErr.ordering) ∧
    (∀ pre post : List (Filter Key Leaf),
      (∀ f ∈ pre, isWildcardLike f = false) →
      post.all isWildcardLike = true →
      orderingViolation (pre ++ post) = false ∧
        splitOp m (pre ++ post) ≠ Except.error SplitErr.ordering ∧
        filterOp m (pre ++ post) ≠ Except.error SplitErr.ordering) := by
  refine ⟨rfl, rfl, ?_, ?_⟩
  · intro pre post hpost
    have hov := orderingViolation_append (w := Filter.ofBool true) rfl hpost pre
    constructor
    · simp [splitOp, splitStateCore, hov]
    · simp [filterOp, splitStateCore, hov]
  · intro pre post hpre hpost
    have hov := orderingViolation_clean hpre hpost
    refine ⟨hov, ?_, ?_⟩
    · rw [splitOp_eq_ite m hov]
      intro hc
      split at hc <;> simp at hc
    · rw [filterOp]
      have hcore : splitStateCore m (pre ++ post) =
          Except.ok (splitFlat ((pre ++ post).map toPredicate) (flattenM m)) := by
        simp [splitStateCore, hov]
      rw [hcore]
      simp

theorem claim_c10_true_wildcard_witness :
    splitOp [((0 : Nat), Node.leaf (1 : Nat))]
        ([] ++ Filter.ofBool true :: [Filter.pred (fun _ _ => false)]) =
      Except.error SplitErr.ordering ∧
      orderingViolation
        ([Filter.pred (fun _ _ => false)] ++
          [Filter.wildcard, Filter.ofBool true] : List (Filter Nat Nat)) =
        false := by
  have hall : ([Filter.pred (fun _ _ => false)] :
      List (Filter Nat Nat)).all isWildcardLike = false := by
    simp [isWildcardLike]
  have hpre : ∀ f ∈ ([Filter.pred (fun _ _ => false)] :
      List (Filter Nat Nat)), isWildcardLike f = false := by
    intro f hf
    simp at hf
    subst hf
    rfl
  have hpost : ([Filter.wildcard, Filter.ofBool true] :
      List (Filter Nat Nat)).all isWildcardLike = true := by
    simp [isWildcardLike]
  exact ⟨((claim_c10_true_wildcard _).2.2.1 [] [Filter.pred (fun _ _ => false)]
      hall).1,
    ((claim_c10_true_wildcard [((0 : Nat), Node.leaf (1 : Nat))]).2.2.2
      [Filter.pred (fun _ _ => false)] [Filter.wildcard, Filter.ofBool true]
      hpre hpost).1⟩

end FlaxState
